import Mathlib

/-!
Verification of the `serve` repository's `Size` component (src/size.rs) and of
the server shutdown state machine (src/main.rs), as a shallow embedding.

Machine integers (`usize` on a 64-bit target) are modelled as `Nat` with
explicit reduction modulo `2 ^ 64` wherever the Rust arithmetic wraps.
Strings are modelled at the byte level (`List Nat`), matching the byte-wise
iteration `s.bytes().enumerate()` in the source; `String` inputs are lowered
with `strBytes`.
-/

namespace Serve

/-- The modulus of `usize` arithmetic on a 64-bit target. -/
def USIZE : Nat := 2 ^ 64

/-- ASCII digit test, mirroring `u8::is_ascii_digit` / the `b'0'..=b'9'` arm. -/
def isDigitB (c : Nat) : Bool := 48 ≤ c && c ≤ 57

/-- Separator bytes accepted between digits: `b','`, `b'_'`, `b' '`. -/
def isSepB (c : Nat) : Bool := c == 44 || c == 95 || c == 32

/-- ASCII lowercasing of one byte, mirroring `u8::to_ascii_lowercase`. -/
def toLowerB (c : Nat) : Nat := if 65 ≤ c && c ≤ 90 then c + 32 else c

/-- Error kind for size parsing, mirroring `SizeErrorKind` in src/size.rs.
The Rust `ParseSizeError` is a trivial record holding one of these kinds. -/
inductive SizeErrorKind where
  | Empty
  | InvalidDigit
  | InvalidSuffix
  | NegOverflow
deriving DecidableEq, Repr

/-- The unit suffix enumeration from src/size.rs. -/
inductive Suffix where
  | B | KB | KiB | MB | MiB | GB | GiB | TB | TiB | PB | PiB
deriving DecidableEq, Repr

/-- The `repr(u64)` discriminant of each suffix: its byte multiplier. -/
def Suffix.val : Suffix → Nat
  | .B => 1
  | .KB => 1000
  | .KiB => 1024
  | .MB => 1000000
  | .MiB => 1048576
  | .GB => 1000000000
  | .GiB => 1073741824
  | .TB => 1000000000000
  | .TiB => 1099511627776
  | .PB => 1000000000000000
  | .PiB => 1125899906842624

/-- Display name of each suffix (ASCII bytes), mirroring `impl fmt::Display for Suffix`. -/
def Suffix.name : Suffix → List Nat
  | .B => [66]
  | .KB => [75, 66]
  | .KiB => [75, 105, 66]
  | .MB => [77, 66]
  | .MiB => [77, 105, 66]
  | .GB => [71, 66]
  | .GiB => [71, 105, 66]
  | .TB => [84, 66]
  | .TiB => [84, 105, 66]
  | .PB => [80, 66]
  | .PiB => [80, 105, 66]

/-- `impl FromStr for Suffix`: lowercase the candidate bytes and match them
against the eleven recognized suffixes. -/
def Suffix.from_str (l : List Nat) : Except SizeErrorKind Suffix :=
  let s := l.map toLowerB
  if s = [98] then .ok .B
  else if s = [107, 98] then .ok .KB
  else if s = [107, 105, 98] then .ok .KiB
  else if s = [109, 98] then .ok .MB
  else if s = [109, 105, 98] then .ok .MiB
  else if s = [103, 98] then .ok .GB
  else if s = [103, 105, 98] then .ok .GiB
  else if s = [116, 98] then .ok .TB
  else if s = [116, 105, 98] then .ok .TiB
  else if s = [112, 98] then .ok .PB
  else if s = [112, 105, 98] then .ok .PiB
  else .error .InvalidSuffix

/-- `Size` wraps a `usize` byte count (`pub struct Size(usize)`). -/
structure Size where
  val : Nat
deriving DecidableEq, Repr

/-- `impl Deref for Size`: dereferencing yields the inner `usize`. -/
def Size.deref (s : Size) : Nat := s.val

/-- The guard of the separator arm: `matches!(last, Some(c) if c.is_ascii_digit())`. -/
def lastDigit : Option Nat → Bool
  | some p => isDigitB p
  | none => false

/-- The character loop of `impl FromStr for Size`. The `last` argument is the
previously scanned byte (`None` exactly when the position `i` is `0`), and
`size` the accumulated value. Digit accumulation and the final suffix
multiplication wrap modulo `2 ^ 64` like the `usize` arithmetic they model. -/
def fromStrLoop : List Nat → Nat → Option Nat → Except SizeErrorKind Nat
  | [], size, _ => .ok size
  | c :: rest, size, last =>
    if c = 45 then .error .NegOverflow
    else if isDigitB c then
      fromStrLoop rest ((size * 10 + (c - 48)) % USIZE) (some c)
    else if isSepB c && lastDigit last then
      fromStrLoop rest size (some c)
    else if last.isSome then
      match Suffix.from_str (c :: rest) with
      | .ok suffix => .ok ((size * suffix.val) % USIZE)
      | .error e => .error e
    else .error .InvalidDigit

/-- Reference variant of the loop over unbounded integers: the accumulated
digit value times the suffix multiplier, with no `usize` reduction. This is
the quantity the specification's result guarantee speaks about. -/
def fromStrLoopE : List Nat → Nat → Option Nat → Except SizeErrorKind Nat
  | [], size, _ => .ok size
  | c :: rest, size, last =>
    if c = 45 then .error .NegOverflow
    else if isDigitB c then
      fromStrLoopE rest (size * 10 + (c - 48)) (some c)
    else if isSepB c && lastDigit last then
      fromStrLoopE rest size (some c)
    else if last.isSome then
      match Suffix.from_str (c :: rest) with
      | .ok suffix => .ok (size * suffix.val)
      | .error e => .error e
    else .error .InvalidDigit

/-- Exact digit value × multiplier of an input, when it is accepted. -/
def sizeExact (l : List Nat) : Except SizeErrorKind Nat :=
  if l = [] then .error .Empty else fromStrLoopE l 0 none

/-- `impl FromStr for Size` at byte level: reject the empty string, then run
the scanning loop from position 0 with accumulator 0. -/
def Size.from_str (l : List Nat) : Except SizeErrorKind Size :=
  if l = [] then .error .Empty
  else (fromStrLoop l 0 none).map Size.mk

/-- Bytes of an ASCII string (the claims only involve ASCII inputs, for which
Rust's `str::bytes` agrees with the character codes). -/
def strBytes (s : String) : List Nat := s.data.map Char.toNat

/-- `"…".parse::<Size>()` on an ASCII string. -/
def Size.parse (s : String) : Except SizeErrorKind Size := Size.from_str (strBytes s)

/-- `runOk l last` holds when, scanning from a state whose previous byte is
`last`, the bytes `l` are all ASCII digits or separators each immediately
preceded by a digit, and the scan ends on a digit. `runOk l none` thus
characterises a non-empty digit run with validly placed separators that ends
in a digit. -/
def runOk : List Nat → Option Nat → Bool
  | [], last => lastDigit last
  | c :: r, last =>
    if isDigitB c then runOk r (some c)
    else if isSepB c && lastDigit last then runOk r (some c)
    else false

/-- Like `runOk` but with no constraint on how the run ends (and allowing the
empty run): the bytes the scanning loop consumes without erroring and without
entering the suffix branch. -/
def scanPre : List Nat → Option Nat → Bool
  | [], _ => true
  | c :: r, last =>
    if isDigitB c then scanPre r (some c)
    else if isSepB c && lastDigit last then scanPre r (some c)
    else false

/-- Accumulated (wrapping) value of the digits of a run, skipping separators. -/
def accR (size : Nat) : List Nat → Nat
  | [] => size
  | c :: r => if isDigitB c then accR ((size * 10 + (c - 48)) % USIZE) r else accR size r

/-- Exact (non-wrapping) accumulated value of a digit list. -/
def accE (size : Nat) : List Nat → Nat
  | [] => size
  | c :: r => accE (size * 10 + (c - 48)) r

/-- `impl From<usize> for Size`. -/
def Size.from_usize (n : Nat) : Size := ⟨n⟩

/-- `impl From<i64> for Size` via `value as usize`: an `as`-cast from `i64` to
a 64-bit `usize` reinterprets the two's-complement bits, i.e. takes the value
modulo `2 ^ 64`. -/
def Size.from_i64 (v : Int) : Size := ⟨(v % (2 ^ 64 : Int)).toNat⟩

/-! ### Formatting (`impl fmt::Display for Size`)

The Rust code converts the byte count to `f64`, divides by the chosen
multiplier, and prints with `{:.0}` or `{:.2}`. Both the `usize → f64` cast
and the division are correctly rounded (round to nearest, ties to even) to a
53-bit significand, and every intermediate here fits the double range, so the
computation is modelled exactly with dyadic rationals `m / 2 ^ d`. -/

/-- Floor of the base-2 logarithm, via an explicit fuel argument so that the
definition is structural; `mylog2fuel fuel n` is correct whenever `n ≤ fuel`. -/
def mylog2fuel : Nat → Nat → Nat
  | 0, _ => 0
  | fuel + 1, n => if 2 ≤ n then mylog2fuel fuel (n / 2) + 1 else 0

/-- Floor of the base-2 logarithm of a positive natural number. -/
def mylog2 (n : Nat) : Nat := mylog2fuel n n

/-- Least `k` with `b ≤ a * 2 ^ k`, via fuel (used when a quotient is < 1). -/
def negExpFuel : Nat → Nat → Nat → Nat
  | 0, _, _ => 0
  | fuel + 1, a, b => if b ≤ a then 0 else negExpFuel fuel (2 * a) b + 1

/-- Round `a / b` to the nearest integer, ties to even (IEEE default). -/
def rdiv (a b : Nat) : Nat :=
  if 2 * (a % b) < b then a / b
  else if b < 2 * (a % b) then a / b + 1
  else if (a / b) % 2 = 0 then a / b else a / b + 1

/-- A nonnegative dyadic rational `m / 2 ^ d`; every finite nonnegative `f64`
value arising here has this shape. -/
structure Dyadic where
  m : Nat
  d : Nat
deriving DecidableEq, Repr

/-- The value of `a / b` as a correctly rounded `f64` (round to nearest, ties
to even, 53-bit significand): the model of both the `usize as f64` cast
(`b = 1`) and of `f64` division of exact dyadic operands. -/
def flDiv (a b : Nat) : Dyadic :=
  if a = 0 ∨ b = 0 then ⟨0, 0⟩
  else if b ≤ a then
    if mylog2 (a / b) ≤ 52 then
      ⟨rdiv (a * 2 ^ (52 - mylog2 (a / b))) b, 52 - mylog2 (a / b)⟩
    else ⟨rdiv a (b * 2 ^ (mylog2 (a / b) - 52)) * 2 ^ (mylog2 (a / b) - 52), 0⟩
  else
    ⟨rdiv (a * 2 ^ (52 + negExpFuel b a b)) b, 52 + negExpFuel b a b⟩

/-- Suffix selection of `impl fmt::Display for Size`: the alternate (`{:#}`)
chain walks the binary multipliers, the default chain the decimal ones,
largest first, defaulting to `B`. -/
def chooseSuffix (alt : Bool) (n : Nat) : Suffix :=
  if alt then
    if Suffix.PiB.val ≤ n then .PiB
    else if Suffix.TiB.val ≤ n then .TiB
    else if Suffix.GiB.val ≤ n then .GiB
    else if Suffix.MiB.val ≤ n then .MiB
    else if Suffix.KiB.val ≤ n then .KiB
    else .B
  else
    if Suffix.PB.val ≤ n then .PB
    else if Suffix.TB.val ≤ n then .TB
    else if Suffix.GB.val ≤ n then .GB
    else if Suffix.MB.val ≤ n then .MB
    else if Suffix.KB.val ≤ n then .KB
    else .B

/-- Decimal digits (ASCII bytes, most significant first) of `n`, prepended to
`acc`; correct whenever `n ≤ fuel`. -/
def natDigitsFuel : Nat → Nat → List Nat → List Nat
  | 0, _, acc => acc
  | fuel + 1, n, acc =>
    if n < 10 then (48 + n) :: acc
    else natDigitsFuel fuel (n / 10) ((48 + n % 10) :: acc)

/-- Decimal digits (ASCII bytes) of `n`, as Rust's integer `Display` prints. -/
def natDigits (n : Nat) : List Nat := natDigitsFuel (n + 1) n []

/-- Two fractional digits with a leading zero, as `{:.2}` prints them. -/
def pad2 (k : Nat) : List Nat := if k < 10 then 48 :: natDigits k else natDigits k

/-- Rendering of the quotient `v` (`write!(f, "{val:.*} {}", p, suffix)`):
precision 0 when the fractional part of `v` is zero, else precision 2 with
round-to-nearest (ties to even) on the exact value of the double, then one
space and the suffix name. -/
def fmtCore (suffix : Suffix) (v : Dyadic) : List Nat :=
  if v.m % 2 ^ v.d = 0 then
    natDigits (rdiv v.m (2 ^ v.d)) ++ 32 :: suffix.name
  else
    natDigits (rdiv (100 * v.m) (2 ^ v.d) / 100)
      ++ 46 :: (pad2 (rdiv (100 * v.m) (2 ^ v.d) % 100) ++ 32 :: suffix.name)

/-- The body of `impl fmt::Display for Size`, producing the output bytes:
choose the suffix, cast the byte count to `f64`, divide by the multiplier
(both correctly rounded), and render. -/
def fmtBytes (n : Nat) (alt : Bool) : List Nat :=
  fmtCore (chooseSuffix alt n)
    (flDiv (flDiv n 1).m (2 ^ (flDiv n 1).d * (chooseSuffix alt n).val))

/-- `format!("{size}")` (`alt = false`) and `format!("{size:#}")`
(`alt = true`) as a `String`. -/
def Size.fmt (s : Size) (alt : Bool) : String :=
  String.mk ((fmtBytes s.val alt).map Char.ofNat)

/-- The ordered multiplier table of one display mode (`B < K < M < G < T < P`). -/
def suffixTable (alt : Bool) : List Suffix :=
  if alt then [.B, .KiB, .MiB, .GiB, .TiB, .PiB] else [.B, .KB, .MB, .GB, .TB, .PB]

/-! ### The shutdown state machine of `main` (src/main.rs)

The accept loop races `listener.accept()`, the Ctrl+C signal and the optional
timer with `tokio::select!`; either shutdown trigger breaks out of the loop,
after which the drain select races `graceful.shutdown()` (ready once every
watcher has completed) against a 3-second sleep, exiting with status 1 when
the sleep wins. The control flow is embedded as a labelled transition system
over the phase, the number of live connection watchers, and whether a
`--timeout` was supplied. -/

/-- The grace period of the drain select: `Duration::from_secs(3)`. -/
def gracePeriodSecs : Nat := 3

/-- Phase of the server main function. -/
inductive Phase where
  | accepting
  | draining
  | terminated (code : Nat)
deriving DecidableEq, Repr

/-- Configuration: phase, live watcher count, and whether `--timeout` was set. -/
structure ServerConfig where
  phase : Phase
  live : Nat
  hasTimeout : Bool
deriving DecidableEq, Repr

/-- Observable events of one `main` execution. -/
inductive SLabel where
  | newConn
  | sigint
  | timerFired
  | connDone
  | allClosed
  | graceTimeout
deriving DecidableEq, Repr

/-- One transition of `main`. `newConn` is the accept branch of the loop
select (spawn a watcher); `sigint` and `timerFired` are the two shutdown
triggers, both of which `break` to the drain phase (the timer branch is only
enabled when a timeout was supplied); `connDone` is a watcher completing;
`allClosed` is `graceful.shutdown()` resolving first (exit 0 via `Ok(())`);
`graceTimeout` is the 3-second sleep resolving first with watchers still
live (`std::process::exit(1)`, abandoning them). -/
inductive SStep : ServerConfig → SLabel → ServerConfig → Prop where
  | accept (n : Nat) (t : Bool) :
      SStep ⟨.accepting, n, t⟩ .newConn ⟨.accepting, n + 1, t⟩
  | ctrlc (n : Nat) (t : Bool) :
      SStep ⟨.accepting, n, t⟩ .sigint ⟨.draining, n, t⟩
  | timer (n : Nat) :
      SStep ⟨.accepting, n, true⟩ .timerFired ⟨.draining, n, true⟩
  | doneAccepting (n : Nat) (t : Bool) :
      SStep ⟨.accepting, n + 1, t⟩ .connDone ⟨.accepting, n, t⟩
  | doneDraining (n : Nat) (t : Bool) :
      SStep ⟨.draining, n + 1, t⟩ .connDone ⟨.draining, n, t⟩
  | drained (t : Bool) :
      SStep ⟨.draining, 0, t⟩ .allClosed ⟨.terminated 0, 0, t⟩
  | forced (n : Nat) (t : Bool) :
      SStep ⟨.draining, n + 1, t⟩ .graceTimeout ⟨.terminated 1, n + 1, t⟩

/-- A finite run: the reflexive-transitive closure of `SStep`, recording the
emitted labels. -/
inductive SRun : ServerConfig → List SLabel → ServerConfig → Prop where
  | nil (c : ServerConfig) : SRun c [] c
  | cons {c c2 c3 : ServerConfig} {l : SLabel} {ls : List SLabel} :
      SStep c l c2 → SRun c2 ls c3 → SRun c (l :: ls) c3

/-! ### Lemmas about the scanning loop -/

/-- A separator byte is not a digit. -/
theorem sep_not_digit {c : Nat} (h : isSepB c = true) : isDigitB c = false := by
  simp only [isSepB, Bool.or_eq_true, beq_iff_eq] at h
  rcases h with (h | h) | h <;> subst h <;> decide

/-- A separator byte is not the minus sign. -/
theorem sep_ne_dash {c : Nat} (h : isSepB c = true) : c ≠ 45 := by
  simp only [isSepB, Bool.or_eq_true, beq_iff_eq] at h
  rcases h with (h | h) | h <;> omega

/-- A digit byte is not the minus sign. -/
theorem digit_ne_dash {c : Nat} (h : isDigitB c = true) : c ≠ 45 := by
  simp only [isDigitB, Bool.and_eq_true, decide_eq_true_eq] at h
  omega

/-- The wrapping loop tracks the exact loop: whenever the exact loop accepts
with value `v`, the wrapping loop accepts with `v % 2 ^ 64`, from any pair of
accumulators related by reduction mod `2 ^ 64`. -/
theorem fromStrLoop_mod : ∀ (l : List Nat) (sE : Nat) (last : Option Nat) (v : Nat),
    fromStrLoopE l sE last = .ok v →
    fromStrLoop l (sE % USIZE) last = .ok (v % USIZE) := by
  intro l
  induction l with
  | nil =>
    intro sE last v h
    simp only [fromStrLoopE, Except.ok.injEq] at h
    simp [fromStrLoop, h]
  | cons c rest ih =>
    intro sE last v h
    simp only [fromStrLoopE] at h
    simp only [fromStrLoop]
    by_cases h45 : c = 45
    · simp [h45] at h
    · rw [if_neg h45] at h ⊢
      by_cases hdig : isDigitB c = true
      · rw [if_pos hdig] at h ⊢
        have heq : (sE % USIZE * 10 + (c - 48)) % USIZE = (sE * 10 + (c - 48)) % USIZE := by
          simp only [USIZE]
          omega
        rw [heq]
        exact ih _ _ _ h
      · rw [if_neg hdig] at h ⊢
        by_cases hsep : (isSepB c && lastDigit last) = true
        · rw [if_pos hsep] at h ⊢
          exact ih _ _ _ h
        · rw [if_neg hsep] at h ⊢
          by_cases hlast : last.isSome = true
          · rw [if_pos hlast] at h ⊢
            cases hsf : Suffix.from_str (c :: rest) with
            | ok suffix =>
              rw [hsf] at h
              simp only [Except.ok.injEq] at h
              exact congrArg Except.ok (Nat.mod_mul_mod.trans (by rw [h]))
            | error e =>
              rw [hsf] at h
              simp at h
          · rw [if_neg hlast] at h
            simp at h

/-- The wrapping loop only accepts values below `2 ^ 64`. -/
theorem fromStrLoop_lt : ∀ (l : List Nat) (size : Nat) (last : Option Nat) (n : Nat),
    size < USIZE → fromStrLoop l size last = .ok n → n < USIZE := by
  intro l
  induction l with
  | nil =>
    intro size last n hs h
    simp only [fromStrLoop, Except.ok.injEq] at h
    omega
  | cons c rest ih =>
    intro size last n hs h
    have hU : 0 < USIZE := by simp [USIZE]
    simp only [fromStrLoop] at h
    by_cases h45 : c = 45
    · simp [h45] at h
    · rw [if_neg h45] at h
      by_cases hdig : isDigitB c = true
      · rw [if_pos hdig] at h
        exact ih _ _ _ (Nat.mod_lt _ hU) h
      · rw [if_neg hdig] at h
        by_cases hsep : (isSepB c && lastDigit last) = true
        · rw [if_pos hsep] at h
          exact ih _ _ _ hs h
        · rw [if_neg hsep] at h
          by_cases hlast : last.isSome = true
          · rw [if_pos hlast] at h
            cases hsf : Suffix.from_str (c :: rest) with
            | ok suffix =>
              rw [hsf] at h
              simp only [Except.ok.injEq] at h
              have hm := Nat.mod_lt (size * suffix.val) hU
              omega
            | error e => rw [hsf] at h; simp at h
          · rw [if_neg hlast] at h; simp at h

/-- On a scannable run (digits and validly placed separators) the loop
consumes everything and returns the accumulated value. -/
theorem fromStrLoop_scan : ∀ (l : List Nat) (size : Nat) (last : Option Nat),
    scanPre l last = true → fromStrLoop l size last = .ok (accR size l) := by
  intro l
  induction l with
  | nil => intro size last _; rfl
  | cons c rest ih =>
    intro size last h
    simp only [scanPre] at h
    simp only [fromStrLoop, accR]
    by_cases hdig : isDigitB c = true
    · rw [if_pos hdig] at h
      rw [if_neg (digit_ne_dash hdig), if_pos hdig, if_pos hdig]
      exact ih _ _ h
    · rw [if_neg hdig] at h
      by_cases hsep : (isSepB c && lastDigit last) = true
      · rw [if_pos hsep] at h
        have hsep' : isSepB c = true := (Bool.and_eq_true _ _).mp hsep |>.1
        rw [if_neg (sep_ne_dash hsep'), if_neg hdig, if_pos hsep, if_neg hdig]
        exact ih _ _ h
      · rw [if_neg hsep] at h
        exact absurd h (by simp)

/-- A run that ends in a digit, extended with one separator, is still
scannable. -/
theorem scanPre_append_sep : ∀ (l : List Nat) (last : Option Nat) (c : Nat),
    runOk l last = true → isSepB c = true → scanPre (l ++ [c]) last = true := by
  intro l
  induction l with
  | nil =>
    intro last c h hc
    simp only [runOk] at h
    simp only [List.nil_append, scanPre]
    rw [if_neg (by rw [sep_not_digit hc]; simp), if_pos (by rw [hc, h]; rfl)]
  | cons a rest ih =>
    intro last c h hc
    simp only [runOk] at h
    simp only [List.cons_append, scanPre]
    by_cases hdig : isDigitB a = true
    · rw [if_pos hdig] at h
      rw [if_pos hdig]
      exact ih _ _ h hc
    · rw [if_neg hdig] at h
      by_cases hsep : (isSepB a && lastDigit last) = true
      · rw [if_pos hsep] at h
        rw [if_neg hdig, if_pos hsep]
        exact ih _ _ h hc
      · rw [if_neg hsep] at h
        exact absurd h (by simp)

/-- A run ending in a digit is in particular scannable. -/
theorem runOk_scanPre : ∀ (l : List Nat) (last : Option Nat),
    runOk l last = true → scanPre l last = true := by
  intro l
  induction l with
  | nil => intro last _; rfl
  | cons a rest ih =>
    intro last h
    simp only [runOk] at h
    simp only [scanPre]
    by_cases hdig : isDigitB a = true
    · rw [if_pos hdig] at h ⊢; exact ih _ h
    · rw [if_neg hdig] at h ⊢
      by_cases hsep : (isSepB a && lastDigit last) = true
      · rw [if_pos hsep] at h ⊢; exact ih _ h
      · rw [if_neg hsep] at h; exact absurd h (by simp)

/-- Appending a non-digit does not change the accumulated digit value. -/
theorem accR_append_nondigit : ∀ (l : List Nat) (size c : Nat),
    isDigitB c = false → accR size (l ++ [c]) = accR size l := by
  intro l
  induction l with
  | nil => intro size c h; simp [accR, h]
  | cons a rest ih =>
    intro size c h
    simp only [List.cons_append, accR]
    by_cases hdig : isDigitB a = true
    · rw [if_pos hdig, if_pos hdig]; exact ih _ _ h
    · rw [if_neg hdig, if_neg hdig]; exact ih _ _ h

/-- A scannable prefix followed by a `-` makes the loop fail with
`NegOverflow`, whatever follows the dash. -/
theorem fromStrLoop_dash : ∀ (l : List Nat) (size : Nat) (last : Option Nat) (rest : List Nat),
    scanPre l last = true → fromStrLoop (l ++ 45 :: rest) size last = .error .NegOverflow := by
  intro l
  induction l with
  | nil => intro size last rest _; simp [fromStrLoop]
  | cons c tail ih =>
    intro size last rest h
    simp only [scanPre] at h
    simp only [List.cons_append, fromStrLoop]
    by_cases hdig : isDigitB c = true
    · rw [if_pos hdig] at h
      rw [if_neg (digit_ne_dash hdig), if_pos hdig]
      exact ih _ _ _ h
    · rw [if_neg hdig] at h
      by_cases hsep : (isSepB c && lastDigit last) = true
      · rw [if_pos hsep] at h
        have hsep' : isSepB c = true := (Bool.and_eq_true _ _).mp hsep |>.1
        rw [if_neg (sep_ne_dash hsep'), if_neg hdig, if_pos hsep]
        exact ih _ _ _ h
      · rw [if_neg hsep] at h
        exact absurd h (by simp)

/-! ### Claim theorems: parsing -/

/-- C1 (counterexample): the claim "the returned byte count equals the
accumulated digit value times the suffix multiplier exactly" fails once the
product leaves `usize`: on input `"18446744073709551616"` (= 2^64, suffix
multiplier 1) the exact value is 2^64 but the parser returns 0, because the
`usize` accumulation wraps. -/
theorem c1_counterexample :
    sizeExact (strBytes "18446744073709551616") = .ok (2 ^ 64)
      ∧ Size.parse "18446744073709551616" = .ok ⟨0⟩
      ∧ (0 : Nat) ≠ 2 ^ 64 * 1 := by
  refine ⟨rfl, rfl, by decide⟩

/-- C1 (amended): whenever the parser accepts, the returned byte count equals
the accumulated digit value times the suffix multiplier reduced modulo
`2 ^ 64`; it equals the exact product whenever that product fits in `usize`.
In particular `"1mb"` parses to 1 000 000, `"1 MiB"` to 1 048 576, and each
recognized suffix (case-insensitively) contributes exactly its stated
multiplier. -/
theorem c1_exact_value :
    (∀ (l : List Nat) (v : Nat), sizeExact l = .ok v → Size.from_str l = .ok ⟨v % USIZE⟩)
    ∧ (∀ (l : List Nat) (v : Nat), sizeExact l = .ok v → v < USIZE → Size.from_str l = .ok ⟨v⟩)
    ∧ Size.parse "1mb" = .ok ⟨1000000⟩
    ∧ Size.parse "1 MiB" = .ok ⟨1048576⟩
    ∧ Size.parse "1b" = .ok ⟨1⟩
    ∧ Size.parse "1kb" = .ok ⟨1000⟩
    ∧ Size.parse "1gb" = .ok ⟨1000000000⟩
    ∧ Size.parse "1tb" = .ok ⟨1000000000000⟩
    ∧ Size.parse "1pb" = .ok ⟨1000000000000000⟩
    ∧ Size.parse "1kib" = .ok ⟨1024⟩
    ∧ Size.parse "1mib" = .ok ⟨1048576⟩
    ∧ Size.parse "1gib" = .ok ⟨1073741824⟩
    ∧ Size.parse "1TiB" = .ok ⟨1099511627776⟩
    ∧ Size.parse "1PiB" = .ok ⟨1125899906842624⟩ := by
  have hmain : ∀ (l : List Nat) (v : Nat), sizeExact l = .ok v →
      Size.from_str l = .ok ⟨v % USIZE⟩ := by
    intro l v h
    unfold sizeExact at h
    by_cases hl : l = []
    · rw [if_pos hl] at h; simp at h
    · rw [if_neg hl] at h
      have := fromStrLoop_mod l 0 none v h
      rw [Nat.zero_mod] at this
      unfold Size.from_str
      rw [if_neg hl, this]
      rfl
  refine ⟨hmain, fun l v h hv => ?_, rfl, rfl, rfl, rfl, rfl, rfl, rfl, rfl, rfl, rfl, rfl, rfl⟩
  have := hmain l v h
  rwa [Nat.mod_eq_of_lt hv] at this

/-- C1 witness: the amended theorem applied at `"1mb"`. -/
theorem c1_witness :
    sizeExact (strBytes "1mb") = .ok 1000000
      ∧ (1000000 : Nat) < USIZE
      ∧ Size.from_str (strBytes "1mb") = .ok ⟨1000000⟩ :=
  ⟨rfl, by decide, c1_exact_value.2.1 (strBytes "1mb") 1000000 rfl (by decide)⟩

/-- C2: each specified input fails with exactly the specified error kind:
empty input with `Empty`, a non-digit at position 0 with `InvalidDigit`
(`"pib"`, `"b4"`), unrecognized trailing text with `InvalidSuffix`
(`"1 nibble"`), and a minus sign with `NegOverflow` (`"-1kb"`). -/
theorem c2_error_kinds :
    Size.parse "" = .error .Empty
      ∧ Size.parse "pib" = .error .InvalidDigit
      ∧ Size.parse "b4" = .error .InvalidDigit
      ∧ Size.parse "1 nibble" = .error .InvalidSuffix
      ∧ Size.parse "-1kb" = .error .NegOverflow :=
  ⟨rfl, rfl, rfl, rfl, rfl⟩

/-- C5: parsing is total — for every byte string it returns either a `Size`
(whose value fits in `usize`, since the accumulation wraps modulo `2 ^ 64`)
or one of the four error kinds; the model has no panicking operation. -/
theorem c5_total (l : List Nat) :
    (∃ s : Size, Size.from_str l = .ok s ∧ s.val < USIZE)
      ∨ (∃ e : SizeErrorKind, Size.from_str l = .error e) := by
  unfold Size.from_str
  by_cases hl : l = []
  · rw [if_pos hl]
    exact Or.inr ⟨.Empty, rfl⟩
  · rw [if_neg hl]
    cases h : fromStrLoop l 0 none with
    | ok n =>
      exact Or.inl ⟨⟨n⟩, rfl, fromStrLoop_lt l 0 none n (by simp [USIZE]) h⟩
    | error e =>
      exact Or.inr ⟨e, rfl⟩

/-- C6 (counterexample): a `-` in the input does not always produce
`NegOverflow` — in `"1k-"` the dash sits in the suffix portion, so the whole
tail `"k-"` is handed to the suffix parser and the result is
`InvalidSuffix`. -/
theorem c6_counterexample :
    (45 ∈ strBytes "1k-")
      ∧ Size.parse "1k-" = .error .InvalidSuffix
      ∧ SizeErrorKind.InvalidSuffix ≠ SizeErrorKind.NegOverflow :=
  ⟨by decide, rfl, by decide⟩

/-- C6 (amended): a `-` that is reached by the scanning loop — i.e. every
byte before it is a digit or a separator immediately preceded by a digit —
makes parsing fail with `NegOverflow` immediately, whatever follows it;
a `-` strictly inside the suffix text instead yields `InvalidSuffix`. -/
theorem c6_neg_overflow (l rest : List Nat) (h : scanPre l none = true) :
    Size.from_str (l ++ 45 :: rest) = .error .NegOverflow := by
  unfold Size.from_str
  rw [if_neg (by simp), fromStrLoop_dash l 0 none rest h]
  rfl

/-- C6 witness: the amended theorem applied at `"-1kb"` (empty prefix). -/
theorem c6_witness :
    scanPre [] none = true
      ∧ Size.from_str ([] ++ 45 :: strBytes "1kb") = .error .NegOverflow :=
  ⟨rfl, c6_neg_overflow [] (strBytes "1kb") rfl⟩

/-- C9: a non-empty digit run with validly placed separators, ending in one
trailing separator and nothing else, parses successfully to the same value as
the run without the trailing separator. -/
theorem c9_trailing_separator (l : List Nat) (c : Nat)
    (h : runOk l none = true) (hc : isSepB c = true) :
    Size.from_str (l ++ [c]) = .ok ⟨accR 0 l⟩ ∧ Size.from_str l = .ok ⟨accR 0 l⟩ := by
  have hl : l ≠ [] := by
    intro e
    subst e
    simp [runOk, lastDigit] at h
  constructor
  · unfold Size.from_str
    rw [if_neg (by simp [hl]), fromStrLoop_scan _ 0 none (scanPre_append_sep l none c h hc),
      accR_append_nondigit l 0 c (sep_not_digit hc)]
    rfl
  · unfold Size.from_str
    rw [if_neg hl, fromStrLoop_scan _ 0 none (runOk_scanPre l none h)]
    rfl

/-- C9 witness: the theorem applied at `"1 "` and `"5_"`. -/
theorem c9_witness :
    runOk (strBytes "1") none = true
      ∧ isSepB 32 = true
      ∧ Size.from_str (strBytes "1" ++ [32]) = .ok ⟨1⟩
      ∧ Size.from_str (strBytes "5" ++ [95]) = .ok ⟨5⟩ :=
  ⟨rfl, rfl, (c9_trailing_separator (strBytes "1") 32 rfl rfl).1,
    (c9_trailing_separator (strBytes "5") 95 rfl rfl).1⟩

/-- C10: `From` for signed integers reinterprets two's complement — `-1` maps
to `2 ^ 64 - 1` — and for every `usize` value `n`, dereferencing
`Size::from(n)` returns `n`. -/
theorem c10_from_signed :
    Size.from_i64 (-1) = ⟨2 ^ 64 - 1⟩
      ∧ ∀ n : Nat, n < USIZE → (Size.from_usize n).deref = n :=
  ⟨rfl, fun _ _ => rfl⟩

/-- C10 witness: the theorem applied at `n = 5`. -/
theorem c10_witness : (5 : Nat) < USIZE ∧ (Size.from_usize 5).deref = 5 :=
  ⟨by decide, c10_from_signed.2 5 (by decide)⟩

/-! ### Claim theorems: the shutdown state machine -/

/-- Splitting a run at a position in its label list. -/
theorem srun_append {c3 : ServerConfig} :
    ∀ (l1 : List SLabel) {c : ServerConfig} (l2 : List SLabel), SRun c (l1 ++ l2) c3 →
      ∃ c2, SRun c l1 c2 ∧ SRun c2 l2 c3 := by
  intro l1
  induction l1 with
  | nil => intro c l2 h; exact ⟨c, .nil c, h⟩
  | cons a t ih =>
    intro c l2 h
    cases h with
    | cons hs hr =>
      obtain ⟨c2, h1, h2⟩ := ih _ hr
      exact ⟨c2, .cons hs h1, h2⟩

/-- From a non-accepting configuration, a step never admits a connection,
never returns to the accepting phase, and never grows the live set. -/
theorem sstep_nonaccepting {c c2 : ServerConfig} {l : SLabel}
    (h : SStep c l c2) (hne : c.phase ≠ .accepting) :
    l ≠ .newConn ∧ c2.phase ≠ .accepting ∧ c2.live ≤ c.live := by
  cases h with
  | accept n t => exact absurd rfl hne
  | ctrlc n t => exact absurd rfl hne
  | timer n => exact absurd rfl hne
  | doneAccepting n t => exact absurd rfl hne
  | doneDraining n t => exact ⟨by decide, by simp, by show n ≤ n + 1; omega⟩
  | drained t => exact ⟨by decide, by simp, by show (0 : Nat) ≤ 0; omega⟩
  | forced n t => exact ⟨by decide, by simp, by show n + 1 ≤ n + 1; omega⟩

/-- From a non-accepting configuration, no run admits a connection, returns
to accepting, or grows the live set. -/
theorem srun_nonaccepting {c c3 : ServerConfig} {ls : List SLabel}
    (h : SRun c ls c3) (hne : c.phase ≠ .accepting) :
    SLabel.newConn ∉ ls ∧ c3.phase ≠ .accepting ∧ c3.live ≤ c.live := by
  induction h with
  | nil => exact ⟨by simp, hne, le_rfl⟩
  | cons hs hr ih =>
    obtain ⟨h1, h2, h3⟩ := sstep_nonaccepting hs hne
    obtain ⟨h4, h5, h6⟩ := ih h2
    refine ⟨?_, h5, le_trans h6 h3⟩
    simp only [List.mem_cons]
    push_neg
    exact ⟨fun e => h1 e.symm, h4⟩

/-- C7: a shutdown trigger (interrupt signal or timer) moves the machine to
the draining phase, and from there no run ever admits a new connection or
adds a watcher to the live set: in any run whose labels split as
`l1 ++ trigger :: l2`, no `newConn` occurs in `l2` — the transition to
draining strictly precedes any further admission. -/
theorem c7_no_admission_after_trigger :
    (∀ {c1 c2 : ServerConfig} {l0 : SLabel}, SStep c1 l0 c2 →
        (l0 = .sigint ∨ l0 = .timerFired) → c2.phase = .draining)
    ∧ ∀ (c c3 : ServerConfig) (l1 l2 : List SLabel) (l0 : SLabel),
        SRun c (l1 ++ l0 :: l2) c3 → (l0 = .sigint ∨ l0 = .timerFired) →
        SLabel.newConn ∉ l2 := by
  have htrig : ∀ {c1 c2 : ServerConfig} {l0 : SLabel}, SStep c1 l0 c2 →
      (l0 = .sigint ∨ l0 = .timerFired) → c2.phase = .draining := by
    intro c1 c2 l0 hs hl
    cases hs with
    | accept n t => rcases hl with h | h <;> simp at h
    | ctrlc n t => rfl
    | timer n => rfl
    | doneAccepting n t => rcases hl with h | h <;> simp at h
    | doneDraining n t => rcases hl with h | h <;> simp at h
    | drained t => rcases hl with h | h <;> simp at h
    | forced n t => rcases hl with h | h <;> simp at h
  refine ⟨htrig, ?_⟩
  intro c c3 l1 l2 l0 hrun hl
  obtain ⟨cm, _, hrest⟩ := srun_append l1 (l0 :: l2) hrun
  cases hrest with
  | cons hs hr =>
    have hphase := htrig hs hl
    refine (srun_nonaccepting hr ?_).1
    rw [hphase]
    exact fun h => Phase.noConfusion h

/-- C7 witness: a concrete run that admits one connection, receives the
signal, drains it and exits cleanly; the theorem yields that no admission
occurs after the trigger. -/
theorem c7_witness : SLabel.newConn ∉ [SLabel.connDone, SLabel.allClosed] := by
  have hrun : SRun ⟨.accepting, 0, false⟩
      ([SLabel.newConn] ++ SLabel.sigint :: [SLabel.connDone, SLabel.allClosed])
      ⟨.terminated 0, 0, false⟩ :=
    .cons (.accept 0 false) (.cons (.ctrlc 1 false)
      (.cons (.doneDraining 0 false) (.cons (.drained false) (.nil _))))
  exact c7_no_admission_after_trigger.2 _ _ [SLabel.newConn] _ _ hrun (Or.inl rfl)

/-- C8: the grace period is the fixed constant 3 seconds, and every
transition into a terminated phase comes from draining and is either
`allClosed` (all watchers completed within the grace period: exit code 0,
empty live set) or `graceTimeout` (the grace period elapsed with at least
one live connection: exit code 1, the outstanding connections abandoned). -/
theorem c8_exit_codes :
    gracePeriodSecs = 3
    ∧ ∀ (c c2 : ServerConfig) (l : SLabel) (code : Nat),
        SStep c l c2 → c2.phase = .terminated code →
        c.phase = .draining
          ∧ ((l = .allClosed ∧ code = 0 ∧ c.live = 0 ∧ c2.live = 0)
            ∨ (l = .graceTimeout ∧ code = 1 ∧ 0 < c.live ∧ c2.live = c.live)) := by
  refine ⟨rfl, ?_⟩
  intro c c2 l code hs hp
  cases hs with
  | accept n t => simp at hp
  | ctrlc n t => simp at hp
  | timer n => simp at hp
  | doneAccepting n t => simp at hp
  | doneDraining n t => simp at hp
  | drained t =>
    simp only [Phase.terminated.injEq] at hp
    exact ⟨rfl, Or.inl ⟨rfl, hp.symm, rfl, rfl⟩⟩
  | forced n t =>
    simp only [Phase.terminated.injEq] at hp
    exact ⟨rfl, Or.inr ⟨rfl, hp.symm, Nat.succ_pos n, rfl⟩⟩

/-- C8 witness: the theorem applied to the clean-drain step at live count 0
and to the forced step at live count 1. -/
theorem c8_witness :
    ((⟨.draining, 0, false⟩ : ServerConfig).phase = .draining)
      ∧ ((⟨.draining, 1, false⟩ : ServerConfig).phase = .draining) :=
  ⟨(c8_exit_codes.2 _ _ _ 0 (.drained false) rfl).1,
    (c8_exit_codes.2 _ _ _ 1 (.forced 0 false) rfl).1⟩

/-! ### Claim theorems: formatting -/

/-- C3: formatting selects, in each display mode, the largest suffix of that
mode's table whose multiplier is at most the value (base unit `B` otherwise),
divides by it with correctly rounded floating-point division, renders with 2
decimals when the fractional part is non-zero and as an integer otherwise,
appending one space and the unit name; in particular 10^9 bytes formats as
"1 GB" / "953.67 MiB", 2^30 bytes as "1.07 GB" / "1 GiB", and 1 byte as
"1 B" in both modes. -/
theorem c3_format :
    (∀ (alt : Bool) (n : Nat),
        ((chooseSuffix alt n).val ≤ n ∨ chooseSuffix alt n = .B)
          ∧ chooseSuffix alt n ∈ suffixTable alt
          ∧ ∀ s ∈ suffixTable alt, s.val ≤ n → s.val ≤ (chooseSuffix alt n).val)
      ∧ Size.fmt ⟨1000000000⟩ false = "1 GB"
      ∧ Size.fmt ⟨1000000000⟩ true = "953.67 MiB"
      ∧ Size.fmt ⟨1073741824⟩ false = "1.07 GB"
      ∧ Size.fmt ⟨1073741824⟩ true = "1 GiB"
      ∧ Size.fmt ⟨1⟩ false = "1 B"
      ∧ Size.fmt ⟨1⟩ true = "1 B" := by
  refine ⟨?_, rfl, rfl, rfl, rfl, rfl, rfl⟩
  intro alt n
  cases alt <;>
    simp only [chooseSuffix, suffixTable, Bool.false_eq_true, if_false, if_true] <;>
    split_ifs with h1 h2 h3 h4 h5 <;>
    refine ⟨?_, by simp, ?_⟩ <;>
    first
      | exact Or.inl h1
      | exact Or.inl h2
      | exact Or.inl h3
      | exact Or.inl h4
      | exact Or.inl h5
      | exact Or.inr rfl
      | (intro s hs hle
         fin_cases hs <;> simp only [Suffix.val] at * <;> omega)

/-- C3 witness: the selection property applied to the decimal formatting of
10^9 bytes and the suffix `GB`. -/
theorem c3_witness :
    Suffix.GB ∈ suffixTable false
      ∧ Suffix.GB.val ≤ 1000000000
      ∧ Suffix.GB.val ≤ (chooseSuffix false 1000000000).val :=
  ⟨by decide, by decide,
    (c3_format.1 false 1000000000).2.2 Suffix.GB (by decide) (by decide)⟩

/-! ### Lemmas for the round-trip claim -/

/-- Every suffix multiplier is positive. -/
theorem suffix_val_pos (s : Suffix) : 0 < s.val := by cases s <;> decide

/-- Every suffix display name re-parses to the same suffix. -/
theorem suffix_from_str_name (s : Suffix) : Suffix.from_str s.name = .ok s := by
  cases s <;> rfl

/-- All bytes of a suffix display name are ASCII (< 128). -/
theorem suffix_name_lt (s : Suffix) : ∀ b ∈ s.name, b < 128 := by cases s <;> decide

/-- The decimal selection chain written out with explicit thresholds. -/
theorem chooseDec_eq (n : Nat) : chooseSuffix false n =
    if 1000000000000000 ≤ n then .PB
    else if 1000000000000 ≤ n then .TB
    else if 1000000000 ≤ n then .GB
    else if 1000000 ≤ n then .MB
    else if 1000 ≤ n then .KB
    else .B := rfl

/-- Correctness of the fuelled base-2 logarithm when the fuel dominates. -/
theorem mylog2fuel_spec : ∀ (fuel n : Nat), 0 < n → n ≤ fuel →
    2 ^ mylog2fuel fuel n ≤ n ∧ n < 2 ^ (mylog2fuel fuel n + 1) := by
  intro fuel
  induction fuel with
  | zero => intro n h1 h2; omega
  | succ f ih =>
    intro n h1 h2
    simp only [mylog2fuel]
    by_cases h : 2 ≤ n
    · rw [if_pos h]
      have hrec := ih (n / 2) (by omega) (by omega)
      have hp1 : (2 : Nat) ^ (mylog2fuel f (n / 2) + 1) = 2 ^ mylog2fuel f (n / 2) * 2 :=
        pow_succ 2 _
      have hp2 : (2 : Nat) ^ (mylog2fuel f (n / 2) + 1 + 1)
          = 2 ^ mylog2fuel f (n / 2) * 2 * 2 := by
        rw [pow_succ, pow_succ]
      omega
    · rw [if_neg h]
      simp only [pow_zero, pow_one]
      omega

/-- Rounding an exact multiple divides exactly. -/
theorem rdiv_mul (x b : Nat) (hb : 0 < b) : rdiv (x * b) b = x := by
  unfold rdiv
  rw [Nat.mul_mod_left, Nat.mul_div_cancel x hb]
  rw [if_pos (by omega)]

/-- Correctly rounded division is exact on quotients that are integers whose
odd part fits in 53 bits (as every value arising in the round-trip does). -/
theorem flDiv_exact (a b q t o : Nat) (hb : 0 < b) (ha : a = q * b)
    (hq : q = o * 2 ^ t) (ho0 : 0 < o) (ho : o < 2 ^ 53) :
    ∃ d, flDiv a b = ⟨q * 2 ^ d, d⟩ := by
  have h2 : (0 : Nat) < 2 := by omega
  have hq0 : 0 < q := by rw [hq]; exact Nat.mul_pos ho0 (pow_pos h2 t)
  have ha0 : 0 < a := by rw [ha]; exact Nat.mul_pos hq0 hb
  have hba : b ≤ a := by
    rw [ha]
    calc b = 1 * b := (one_mul b).symm
    _ ≤ q * b := Nat.mul_le_mul_right b hq0
  have hdiv : a / b = q := by rw [ha, Nat.mul_div_cancel q hb]
  have hlog : 2 ^ mylog2 q ≤ q ∧ q < 2 ^ (mylog2 q + 1) := mylog2fuel_spec q q hq0 le_rfl
  unfold flDiv
  rw [if_neg (by omega), if_pos hba, hdiv]
  by_cases hle : mylog2 q ≤ 52
  · rw [if_pos hle]
    refine ⟨52 - mylog2 q, ?_⟩
    have harr : a * 2 ^ (52 - mylog2 q) = q * 2 ^ (52 - mylog2 q) * b := by
      rw [ha]; ring
    rw [harr, rdiv_mul _ _ hb]
  · rw [if_neg hle]
    have he : mylog2 q < 53 + t := by
      by_contra hcon
      push_neg at hcon
      have hup : q < 2 ^ (53 + t) := by
        rw [hq, pow_add]
        gcongr
      have hmono : (2 : Nat) ^ (53 + t) ≤ 2 ^ mylog2 q := Nat.pow_le_pow_right h2 hcon
      omega
    have hdvd : 2 ^ (mylog2 q - 52) ∣ q := by
      have hp1 : (2 : Nat) ^ (mylog2 q - 52) ∣ 2 ^ t := pow_dvd_pow 2 (by omega)
      have hp2 : (2 : Nat) ^ t ∣ q := by rw [hq]; exact dvd_mul_left (2 ^ t) o
      exact dvd_trans hp1 hp2
    refine ⟨0, ?_⟩
    have harr : a = q / 2 ^ (mylog2 q - 52) * (b * 2 ^ (mylog2 q - 52)) := by
      rw [ha, mul_comm b (2 ^ (mylog2 q - 52)), ← mul_assoc, Nat.div_mul_cancel hdvd]
    rw [harr, rdiv_mul _ _ (Nat.mul_pos hb (pow_pos h2 _)), Nat.div_mul_cancel hdvd,
      pow_zero, mul_one]

/-- Rendering an exact integer quotient prints its digits, a space, and the
suffix name. -/
theorem fmtCore_exact (suffix : Suffix) (x d : Nat) :
    fmtCore suffix ⟨x * 2 ^ d, d⟩ = natDigits x ++ 32 :: suffix.name := by
  unfold fmtCore
  rw [if_pos (Nat.mul_mod_left x (2 ^ d)), rdiv_mul x (2 ^ d) (pow_pos (by omega) d)]

/-- Formatting an exact multiple of the chosen decimal multiplier prints the
quotient's digits, a space, and the suffix name. -/
theorem fmt_exact (n k : Nat) (suffix : Suffix)
    (hC : chooseSuffix false n = suffix)
    (hn : n = k * suffix.val) (hk0 : 0 < k) (hk : k < 2 ^ 53)
    (t o : Nat) (hdec : n = o * 2 ^ t) (ho0 : 0 < o) (ho : o < 2 ^ 53) :
    fmtBytes n false = natDigits k ++ 32 :: suffix.name := by
  unfold fmtBytes
  rw [hC]
  obtain ⟨d1, hd1⟩ := flDiv_exact n 1 n t o (by omega) (by rw [mul_one]) hdec ho0 ho
  rw [hd1]
  show fmtCore suffix (flDiv (n * 2 ^ d1) (2 ^ d1 * suffix.val)) = _
  obtain ⟨d2, hd2⟩ := flDiv_exact (n * 2 ^ d1) (2 ^ d1 * suffix.val) k 0 k
    (Nat.mul_pos (pow_pos (by omega) d1) (suffix_val_pos suffix))
    (by rw [hn]; ring) (by rw [pow_zero, mul_one]) hk0 hk
  rw [hd2, fmtCore_exact]

/-- Unfolding a digit byte test. -/
theorem isDigitB_iff (c : Nat) : isDigitB c = true ↔ 48 ≤ c ∧ c ≤ 57 := by
  simp [isDigitB]

/-- The digit accumulator of `natDigitsFuel` only prepends. -/
theorem natDigitsFuel_acc : ∀ (fuel n : Nat) (acc : List Nat),
    natDigitsFuel fuel n acc = natDigitsFuel fuel n [] ++ acc := by
  intro fuel
  induction fuel with
  | zero => intro n acc; rfl
  | succ f ih =>
    intro n acc
    simp only [natDigitsFuel]
    by_cases h : n < 10
    · rw [if_pos h, if_pos h]; rfl
    · rw [if_neg h, if_neg h, ih (n / 10) ((48 + n % 10) :: acc),
        ih (n / 10) ((48 + n % 10) :: [])]
      simp

/-- Every byte produced by `natDigitsFuel` over a digit accumulator is a digit. -/
theorem natDigitsFuel_digits : ∀ (fuel n : Nat) (acc : List Nat),
    (∀ c ∈ acc, isDigitB c = true) → ∀ c ∈ natDigitsFuel fuel n acc, isDigitB c = true := by
  intro fuel
  induction fuel with
  | zero => intro n acc hacc; exact hacc
  | succ f ih =>
    intro n acc hacc c hc
    simp only [natDigitsFuel] at hc
    by_cases h : n < 10
    · rw [if_pos h] at hc
      rcases List.mem_cons.mp hc with h1 | h1
      · subst h1; rw [isDigitB_iff]; omega
      · exact hacc _ h1
    · rw [if_neg h] at hc
      refine ih _ _ ?_ c hc
      intro x hx
      rcases List.mem_cons.mp hx with h1 | h1
      · subst h1; rw [isDigitB_iff]; omega
      · exact hacc _ h1

/-- The rendered digits of `n` are all digit bytes. -/
theorem natDigits_digits (n : Nat) : ∀ c ∈ natDigits n, isDigitB c = true :=
  natDigitsFuel_digits (n + 1) n [] (by simp)

/-- The rendered digit list is never empty. -/
theorem natDigits_ne_nil (n : Nat) : natDigits n ≠ [] := by
  unfold natDigits
  simp only [natDigitsFuel]
  by_cases h : n < 10
  · rw [if_pos h]; simp
  · rw [if_neg h, natDigitsFuel_acc]; simp

/-- One unfolding step of `accE`. -/
theorem accE_cons (size c : Nat) (r : List Nat) :
    accE size (c :: r) = accE (size * 10 + (c - 48)) r := rfl

/-- One unfolding step of `accR`. -/
theorem accR_cons (size c : Nat) (r : List Nat) :
    accR size (c :: r)
      = if isDigitB c then accR ((size * 10 + (c - 48)) % USIZE) r else accR size r := rfl

/-- Exact accumulation distributes over append. -/
theorem accE_append : ∀ (l1 l2 : List Nat) (size : Nat),
    accE size (l1 ++ l2) = accE (accE size l1) l2 := by
  intro l1
  induction l1 with
  | nil => intro l2 size; rfl
  | cons c t ih =>
    intro l2 size
    rw [List.cons_append, accE_cons, accE_cons]
    exact ih l2 (size * 10 + (c - 48))

/-- Exact accumulation of the rendered digits of `n` recovers `n` (shifted
past any prior accumulator value). -/
theorem accE_natDigitsFuel : ∀ (fuel n : Nat), n < fuel →
    ∃ L, 0 < L ∧ ∀ size, accE size (natDigitsFuel fuel n []) = size * 10 ^ L + n := by
  intro fuel
  induction fuel with
  | zero => intro n h; omega
  | succ f ih =>
    intro n h
    simp only [natDigitsFuel]
    by_cases h10 : n < 10
    · rw [if_pos h10]
      refine ⟨1, by omega, fun size => ?_⟩
      show size * 10 + (48 + n - 48) = size * 10 ^ 1 + n
      rw [pow_one]
      omega
    · rw [if_neg h10, natDigitsFuel_acc]
      obtain ⟨L, hL, hacc⟩ := ih (n / 10) (by omega)
      refine ⟨L + 1, by omega, fun size => ?_⟩
      rw [accE_append, hacc size]
      show (size * 10 ^ L + n / 10) * 10 + (48 + n % 10 - 48) = size * 10 ^ (L + 1) + n
      have hp : (10 : Nat) ^ (L + 1) = 10 ^ L * 10 := pow_succ 10 L
      have he : (size * 10 ^ L + n / 10) * 10 = size * (10 ^ L * 10) + n / 10 * 10 := by ring
      rw [hp, he]
      omega

/-- Exact accumulation of the digits of `n` from zero is `n`. -/
theorem accE_natDigits (n : Nat) : accE 0 (natDigits n) = n := by
  obtain ⟨L, _, h⟩ := accE_natDigitsFuel (n + 1) n (by omega)
  unfold natDigits
  rw [h 0]
  simp

/-- On all-digit lists the loop accumulator agrees with exact accumulation
reduced modulo `2 ^ 64`. -/
theorem accR_eq_accE : ∀ (ds : List Nat) (size : Nat),
    (∀ c ∈ ds, isDigitB c = true) →
    accR (size % USIZE) ds = accE size ds % USIZE := by
  intro ds
  induction ds with
  | nil => intro size _; rfl
  | cons c t ih =>
    intro size hdig
    have hc := hdig c (List.mem_cons_self c t)
    rw [accR_cons, accE_cons, if_pos hc]
    have heq : (size % USIZE * 10 + (c - 48)) % USIZE = (size * 10 + (c - 48)) % USIZE := by
      simp only [USIZE]
      omega
    rw [heq]
    exact ih _ (fun x hx => hdig x (List.mem_cons_of_mem c hx))

/-- A non-empty all-digit list ends in a digit. -/
theorem getLast_digit : ∀ (l : List Nat), l ≠ [] → (∀ c ∈ l, isDigitB c = true) →
    ∃ d, l.getLast? = some d ∧ isDigitB d = true := by
  intro l
  induction l with
  | nil => intro h; exact absurd rfl h
  | cons c t ih =>
    intro _ hdig
    cases t with
    | nil => exact ⟨c, rfl, hdig c (by simp)⟩
    | cons c2 t2 =>
      obtain ⟨d, h1, h2⟩ := ih (by simp) (fun x hx => hdig x (List.mem_cons_of_mem c hx))
      exact ⟨d, by rwa [List.getLast?_cons_cons], h2⟩

/-- The loop consumes a leading all-digit block, accumulating its value; the
previous-byte marker afterwards is the block's last digit. -/
theorem fromStrLoop_digits : ∀ (ds rest : List Nat) (size : Nat) (last : Option Nat) (d : Nat),
    (∀ c ∈ ds, isDigitB c = true) → ds.getLast? = some d →
    fromStrLoop (ds ++ rest) size last = fromStrLoop rest (accR size ds) (some d) := by
  intro ds
  induction ds with
  | nil => intro rest size last d _ hlast; simp at hlast
  | cons c tail ih =>
    intro rest size last d hdig hlast
    have hc : isDigitB c = true := hdig c (List.mem_cons_self c tail)
    rw [List.cons_append, accR_cons]
    simp only [fromStrLoop]
    rw [if_neg (digit_ne_dash hc), if_pos hc, if_pos hc]
    cases tail with
    | nil =>
      have hd : c = d := by
        simp only [List.getLast?_singleton, Option.some.injEq] at hlast
        exact hlast
      subst hd
      rfl
    | cons c2 t2 =>
      have hlast2 : (c2 :: t2).getLast? = some d := by
        rwa [List.getLast?_cons_cons] at hlast
      exact ih rest _ (some c) d (fun x hx => hdig x (List.mem_cons_of_mem c hx)) hlast2

/-- Round-trip of ASCII bytes through `Char`. -/
theorem charToNat_ofNat : ∀ b : Nat, b < 128 → (Char.ofNat b).toNat = b := by decide

/-- Lowering a string built from ASCII bytes recovers the bytes. -/
theorem strBytes_mk (l : List Nat) (h : ∀ b ∈ l, b < 128) :
    strBytes (String.mk (l.map Char.ofNat)) = l := by
  show (l.map Char.ofNat).map Char.toNat = l
  rw [List.map_map]
  have h2 : ∀ b ∈ l, (Char.toNat ∘ Char.ofNat) b = id b :=
    fun b hb => charToNat_ofNat b (h b hb)
  rw [List.map_congr_left h2, List.map_id]

/-- Core of the round-trip: an exact multiple of the chosen decimal
multiplier formats to digits-space-suffix and parses back to itself. -/
theorem roundtrip_core (n k : Nat) (suffix : Suffix)
    (hC : chooseSuffix false n = suffix)
    (hn : n = k * suffix.val) (hk0 : 0 < k) (hk : k < 2 ^ 53)
    (t o : Nat) (hdec : n = o * 2 ^ t) (ho0 : 0 < o) (ho : o < 2 ^ 53)
    (h64 : n < USIZE)
    (c0 : Nat) (cs : List Nat) (hname : suffix.name = c0 :: cs)
    (h45 : c0 ≠ 45) (hd0 : isDigitB c0 = false) :
    Size.parse (Size.fmt ⟨n⟩ false) = .ok ⟨n⟩ := by
  have hfmt := fmt_exact n k suffix hC hn hk0 hk t o hdec ho0 ho
  have hdigs := natDigits_digits k
  have hlt : ∀ b ∈ fmtBytes n false, b < 128 := by
    rw [hfmt]
    intro b hb
    rcases List.mem_append.mp hb with hb | hb
    · have := (isDigitB_iff b).mp (hdigs b hb)
      omega
    · rcases List.mem_cons.mp hb with hb | hb
      · omega
      · exact suffix_name_lt suffix b hb
  have hstr : strBytes (Size.fmt ⟨n⟩ false) = fmtBytes n false := by
    unfold Size.fmt
    exact strBytes_mk _ hlt
  unfold Size.parse
  rw [hstr, hfmt]
  unfold Size.from_str
  rw [if_neg (by simp)]
  obtain ⟨d, hdlast, hddig⟩ := getLast_digit (natDigits k) (natDigits_ne_nil k) hdigs
  rw [fromStrLoop_digits (natDigits k) (32 :: suffix.name) 0 none d hdigs hdlast]
  have hkU : k < USIZE := by
    have hkn : k ≤ n := by
      rw [hn]
      exact Nat.le_mul_of_pos_right k (suffix_val_pos suffix)
    omega
  have hacc : accR 0 (natDigits k) = k := by
    have h1 := accR_eq_accE (natDigits k) 0 hdigs
    rw [Nat.zero_mod] at h1
    rw [h1, accE_natDigits, Nat.mod_eq_of_lt hkU]
  rw [hacc]
  have hsep32 : (isSepB 32 && lastDigit (some d)) = true := by
    have hld : lastDigit (some d) = true := hddig
    rw [hld]
    rfl
  simp only [fromStrLoop]
  rw [if_neg (by omega : ¬(32 : Nat) = 45), if_neg (by decide : ¬isDigitB 32 = true),
    if_pos hsep32, hname]
  simp only [fromStrLoop]
  rw [if_neg h45, if_neg (by simp [hd0]),
    if_neg (by rw [show lastDigit (some 32) = false from rfl, Bool.and_false]; simp),
    if_pos (show (some (32 : Nat)).isSome = true by rfl), ← hname, suffix_from_str_name suffix]
  show Except.ok (Size.mk ((k * suffix.val) % USIZE)) = Except.ok (Size.mk n)
  rw [← hn, Nat.mod_eq_of_lt h64]

/-- C4: for every `usize` byte count `n` that is an exact multiple of the
multiplier chosen by decimal formatting for `n`, parsing the decimal
rendering of `n` bytes yields `n` back (so e.g. 1000 → "1 KB" → 1000); for
non-aligned values the round trip is lossy — 1001 renders as "1.00 KB",
which does not even re-parse. -/
theorem c4_roundtrip :
    (∀ n : Nat, n < USIZE → (chooseSuffix false n).val ∣ n →
        Size.parse (Size.fmt ⟨n⟩ false) = .ok ⟨n⟩)
      ∧ Size.fmt ⟨1001⟩ false = "1.00 KB"
      ∧ Size.parse (Size.fmt ⟨1001⟩ false) = .error .InvalidSuffix := by
  refine ⟨?_, rfl, rfl⟩
  intro n h64 hdvd
  by_cases hn0 : n = 0
  · subst hn0; rfl
  · have hU64 : n < 18446744073709551616 := by
      have hU : USIZE = 18446744073709551616 := by norm_num [USIZE]
      omega
    have hcd := chooseDec_eq n
    by_cases h15 : 1000000000000000 ≤ n
    · have hC : chooseSuffix false n = .PB := by rw [hcd, if_pos h15]
      have hlit : (1000000000000000 : Nat) ∣ n := by
        rw [hC, show Suffix.val .PB = 1000000000000000 from rfl] at hdvd
        exact hdvd
      obtain ⟨k, hnk⟩ := hlit
      refine roundtrip_core n k .PB hC
        (by rw [hnk, show Suffix.val .PB = 1000000000000000 from rfl]; ring)
        (by omega) (by omega) 15 (k * 30517578125)
        (by rw [hnk, show (2 : Nat) ^ 15 = 32768 by norm_num]; ring)
        (by omega) (by omega) h64 80 [66] rfl (by omega) rfl
    · by_cases h12 : 1000000000000 ≤ n
      · have hC : chooseSuffix false n = .TB := by rw [hcd, if_neg h15, if_pos h12]
        have hlit : (1000000000000 : Nat) ∣ n := by
          rw [hC, show Suffix.val .TB = 1000000000000 from rfl] at hdvd
          exact hdvd
        obtain ⟨k, hnk⟩ := hlit
        refine roundtrip_core n k .TB hC
          (by rw [hnk, show Suffix.val .TB = 1000000000000 from rfl]; ring)
          (by omega) (by omega) 12 (k * 244140625)
          (by rw [hnk, show (2 : Nat) ^ 12 = 4096 by norm_num]; ring)
          (by omega) (by omega) h64 84 [66] rfl (by omega) rfl
      · by_cases h9 : 1000000000 ≤ n
        · have hC : chooseSuffix false n = .GB := by
            rw [hcd, if_neg h15, if_neg h12, if_pos h9]
          have hlit : (1000000000 : Nat) ∣ n := by
            rw [hC, show Suffix.val .GB = 1000000000 from rfl] at hdvd
            exact hdvd
          obtain ⟨k, hnk⟩ := hlit
          refine roundtrip_core n k .GB hC
            (by rw [hnk, show Suffix.val .GB = 1000000000 from rfl]; ring)
            (by omega) (by omega) 9 (k * 1953125)
            (by rw [hnk, show (2 : Nat) ^ 9 = 512 by norm_num]; ring)
            (by omega) (by omega) h64 71 [66] rfl (by omega) rfl
        · by_cases h6 : 1000000 ≤ n
          · have hC : chooseSuffix false n = .MB := by
              rw [hcd, if_neg h15, if_neg h12, if_neg h9, if_pos h6]
            have hlit : (1000000 : Nat) ∣ n := by
              rw [hC, show Suffix.val .MB = 1000000 from rfl] at hdvd
              exact hdvd
            obtain ⟨k, hnk⟩ := hlit
            refine roundtrip_core n k .MB hC
              (by rw [hnk, show Suffix.val .MB = 1000000 from rfl]; ring)
              (by omega) (by omega) 6 (k * 15625)
              (by rw [hnk, show (2 : Nat) ^ 6 = 64 by norm_num]; ring)
              (by omega) (by omega) h64 77 [66] rfl (by omega) rfl
          · by_cases h3 : 1000 ≤ n
            · have hC : chooseSuffix false n = .KB := by
                rw [hcd, if_neg h15, if_neg h12, if_neg h9, if_neg h6, if_pos h3]
              have hlit : (1000 : Nat) ∣ n := by
                rw [hC, show Suffix.val .KB = 1000 from rfl] at hdvd
                exact hdvd
              obtain ⟨k, hnk⟩ := hlit
              refine roundtrip_core n k .KB hC
                (by rw [hnk, show Suffix.val .KB = 1000 from rfl]; ring)
                (by omega) (by omega) 3 (k * 125)
                (by rw [hnk, show (2 : Nat) ^ 3 = 8 by norm_num]; ring)
                (by omega) (by omega) h64 75 [66] rfl (by omega) rfl
            · have hC : chooseSuffix false n = .B := by
                rw [hcd, if_neg h15, if_neg h12, if_neg h9, if_neg h6, if_neg h3]
              refine roundtrip_core n n .B hC
                (by rw [show Suffix.val .B = 1 from rfl]; ring)
                (by omega) (by omega) 0 n (by rw [pow_zero, mul_one])
                (by omega) (by omega) h64 66 [] rfl (by omega) rfl

/-- C4 witness: the round trip applied at `n = 1000` (an exact multiple of
the chosen KB multiplier). -/
theorem c4_witness :
    (1000 : Nat) < USIZE
      ∧ (chooseSuffix false 1000).val ∣ 1000
      ∧ Size.parse (Size.fmt ⟨1000⟩ false) = .ok ⟨1000⟩ :=
  ⟨by decide, by decide, c4_roundtrip.1 1000 (by decide) (by decide)⟩

end Serve

